import Mathlib

/-!
# Verification of the `wolfram-expr` expression library

A shallow embedding of the crate's two source files, `lib.rs` and
`symbol.rs`, together with proofs about the claimed properties.

Strings are modelled as `List Char`.  The crate's `symbol/parse`
submodule (the functions `SymbolRef_try_new`, `SymbolNameRef_try_new`,
`ContextRef_try_new`) is declared in `symbol.rs` but its source file is
not part of the sources; those validators are modelled from the
specification, as noted on each definition.
-/

namespace WolframExpr

/-- The namespace delimiter character of the Wolfram Language, the grave
accent. -/
def grave : Char := Char.ofNat 96

/-- ASCII letter, `[A-Za-z]`. -/
def isAsciiLetter (c : Char) : Bool :=
  (Char.ofNat 65 ≤ c && c ≤ Char.ofNat 90) || (Char.ofNat 97 ≤ c && c ≤ Char.ofNat 122)

/-- First character of a symbol-name: a letter or `$`. -/
def isNameFirst (c : Char) : Bool :=
  isAsciiLetter c || c = Char.ofNat 36

/-- Non-first character of a symbol-name: a letter, a digit or `$`. -/
def isNameRest (c : Char) : Bool :=
  isNameFirst c || (Char.ofNat 48 ≤ c && c ≤ Char.ofNat 57)

/-- Modelled from the spec: the name grammar `[A-Za-z$][A-Za-z0-9$]*`
used by the absent `symbol/parse` module — a valid name has at least one
character, the first a letter or `$`, the rest letters, digits or `$`. -/
def validName (s : List Char) : Bool :=
  match s with
  | [] => false
  | c :: cs => isNameFirst c && cs.all isNameRest

/-- Modelled from the spec: `SymbolNameRef::try_new` (crate
`symbol/parse` module, absent from the sources) — valid iff the text is
a non-empty valid name with zero delimiter characters. -/
def SymbolNameRef_try_new (s : List Char) : Option (List Char) :=
  if validName s then some s else none

/-- Split a string at every grave character, mirroring Rust's
`str::split` with the grave delimiter (used by `Context::components`). -/
def splitGrave : List Char → List (List Char)
  | [] => [[]]
  | c :: cs =>
    if c = grave then [] :: splitGrave cs
    else
      match splitGrave cs with
      | [] => [[c]]
      | p :: ps => (c :: p) :: ps

/-- Join parts with a single grave between consecutive parts (the
inverse of `splitGrave`). -/
def joinGrave : List (List Char) → List Char
  | [] => []
  | [p] => p
  | p :: q :: ps => p ++ grave :: joinGrave (q :: ps)

/-- The context string formed from a list of component names: each name
followed by exactly one grave. -/
def ctxOfNames (names : List (List Char)) : List Char :=
  match names with
  | [] => []
  | n :: ns => n ++ grave :: ctxOfNames ns

/-- Modelled from the spec: validity of a context string — a non-empty
sequence of one or more valid names, each immediately followed by
exactly one delimiter, with no delimiter before the first component. -/
def validContext (s : List Char) : Bool :=
  let parts := splitGrave s
  decide (2 ≤ parts.length) && decide (parts.getLastD [] = []) &&
    parts.dropLast.all validName

/-- Modelled from the spec: `ContextRef::try_new` (crate `symbol/parse`
module, absent from the sources). -/
def ContextRef_try_new (s : List Char) : Option (List Char) :=
  if validContext s then some s else none

/-- Split a string at its *last* grave character, returning the prefix
up to and including that grave together with the grave-free suffix;
`none` when the string has no grave. -/
def lastGraveSplit : List Char → Option (List Char × List Char)
  | [] => none
  | c :: cs =>
    match lastGraveSplit cs with
    | some (ctx, name) => some (c :: ctx, name)
    | none => if c = grave then some ([c], cs) else none

/-- Modelled from the spec: `SymbolRef::try_new` (crate `symbol/parse`
module, absent from the sources) — valid iff the text contains at least
one delimiter, the substring after the last delimiter is a valid name,
and every delimiter-terminated component before that point is itself a
valid, non-empty name. -/
def SymbolRef_try_new (s : List Char) : Option (List Char) :=
  match lastGraveSplit s with
  | none => none
  | some (ctx, name) =>
    if validContext ctx && validName name then some s else none

/-- `Symbol::try_new` (from `symbol.rs`): delegate to
`SymbolRef::try_new`, then copy the borrowed text into an owned value. -/
def Symbol.try_new (s : List Char) : Option (List Char) :=
  SymbolRef_try_new s

/-- `Context::try_new` (from `symbol.rs`): delegate to
`ContextRef::try_new`, then copy the borrowed text into an owned value. -/
def Context.try_new (s : List Char) : Option (List Char) :=
  ContextRef_try_new s

/-- `Symbol::new` (from `symbol.rs`): unwrap `Symbol::try_new`, turning
an absent result into a panic.  Panics are modelled by `Except.error`
carrying the panic message. -/
def Symbol.new (s : List Char) : Except (List Char) (List Char) :=
  match Symbol.try_new s with
  | some v => .ok v
  | none => .error (String.data "string is not parseable as a symbol: " ++ s)

/-- `Context::new` (from `symbol.rs`): unwrap `Context::try_new`,
turning an absent result into a panic. -/
def Context.new (s : List Char) : Except (List Char) (List Char) :=
  match Context.try_new s with
  | some v => .ok v
  | none => .error (String.data "string is not parseable as a symbol: " ++ s)

/-- The index of the last grave in the string, mirroring
`str::rfind('`')` as used by `SymbolRef::context` and
`SymbolRef::symbol_name` in `symbol.rs`. -/
def rfindGrave : List Char → Option Nat
  | [] => none
  | c :: cs =>
    match rfindGrave cs with
    | some i => some (i + 1)
    | none => if c = grave then some 0 else none

/-- `SymbolRef::context` (from `symbol.rs`): find the last grave and
keep the prefix up to and including it; the `rfind` failure (`expect`)
is modelled by `none`. -/
def SymbolRef.context (s : List Char) : Option (List Char) :=
  (rfindGrave s).map fun i => s.take (i + 1)

/-- `SymbolRef::symbol_name` (from `symbol.rs`): find the last grave and
keep the suffix after it; the `rfind` failure (`expect`) is modelled by
`none`. -/
def SymbolRef.symbol_name (s : List Char) : Option (List Char) :=
  (rfindGrave s).map fun i => s.drop (i + 1)

/-- `Context::join` (from `symbol.rs`): re-validate the concatenation
`self ++ name ++ grave`; the `expect` on failure is modelled by `none`. -/
def Context.join (c n : List Char) : Option (List Char) :=
  ContextRef_try_new (c ++ n ++ [grave])

/-- `Context::components` (from `symbol.rs`): split at graves, drop
empty segments, and re-validate every remaining segment as a name (the
`expect` on a failed re-validation is modelled by `none`). -/
def Context.components (c : List Char) : Option (List (List Char)) :=
  let segs := (splitGrave c).filter fun p => !p.isEmpty
  if segs.all validName then some segs else none

/-- NaN test on an IEEE-754 double bit pattern: exponent field all ones
and non-zero mantissa.  `f64` values are modelled by their bit
patterns. -/
def f64IsNaN (bits : Nat) : Bool :=
  ((bits >>> 52) &&& 0x7FF == 0x7FF) && (bits &&& 0xFFFFFFFFFFFFF != 0)

/-- `ordered_float::NotNan<f64>` (the crate's `F64` type alias): a
double bit pattern that is not a NaN. -/
def F64 : Type := { bits : Nat // f64IsNaN bits = false }

instance : DecidableEq F64 := fun a b =>
  decidable_of_iff (a.val = b.val) Subtype.ext_iff.symm

/- The type `ExprKind` from `lib.rs`, with `Normal` and the element vector made
mutually inductive so that all operations are structurally recursive.
In the Rust source the `Symbol` payload is a validated string and the
fields of `Normal` are `Expr` (reference-counted `ExprKind`); equality
of `Expr` is structural, so the pure tree carries the same data. -/
mutual
inductive ExprKind : Type where
  | integer (n : Int)
  | real (r : F64)
  | str (s : List Char)
  | symbol (s : List Char)
  | normal (n : Normal)
inductive Normal : Type where
  | mk (head : ExprKind) (contents : ExprList)
inductive ExprList : Type where
  | nil
  | cons (e : ExprKind) (es : ExprList)
end

/-- The element list of a `Normal`, as a plain Lean list. -/
def ExprList.toList : ExprList → List ExprKind
  | .nil => []
  | .cons e es => e :: es.toList

/-- `Vec::len` of the element vector. -/
def ExprList.length : ExprList → Nat
  | .nil => 0
  | .cons _ es => es.length + 1

/-- `Normal::head` (from `lib.rs`). -/
def Normal.head : Normal → ExprKind
  | .mk h _ => h

/-- `Normal::elements` (from `lib.rs`). -/
def Normal.elements : Normal → List ExprKind
  | .mk _ c => c.toList

/- Model of the derived `PartialEq` and `Eq` of `ExprKind` (from `lib.rs`):
recursive field-by-field structural comparison.  `NotNan<f64>` equality
is modelled as bit equality (the sign distinction of IEEE zeros is below
the granularity of this model). -/
mutual
def beqK : ExprKind → ExprKind → Bool
  | .integer a, .integer b => a == b
  | .real a, .real b => a.val == b.val
  | .str a, .str b => a == b
  | .symbol a, .symbol b => a == b
  | .normal a, .normal b => beqN a b
  | _, _ => false
def beqN : Normal → Normal → Bool
  | .mk h1 c1, .mk h2 c2 => beqK h1 h2 && beqL c1 c2
def beqL : ExprList → ExprList → Bool
  | .nil, .nil => true
  | .cons a as, .cons b bs => beqK a b && beqL as bs
  | _, _ => false
end

/-- Hash mixing step, truncated to 64 bits as Rust hashers are. -/
def hashMix (a b : Nat) : Nat := (a * 1000003 + b) % 2 ^ 64

/-- Hash of a string's characters. -/
def strCode (s : List Char) : Nat :=
  s.foldl (fun a c => hashMix a c.toNat) 5381

/-- Hash of a signed integer. -/
def intCode (n : Int) : Nat :=
  match n with
  | .ofNat m => hashMix 1 m
  | .negSucc m => hashMix 2 m

/- Model of the derived `Hash` of `ExprKind` (from `lib.rs`): a deterministic
function of the discriminant and the recursively hashed fields.  (The
concrete mixing of Rust's `SipHasher` is not reproduced; the claims
depend only on hashing being a function of the structural value.) -/
mutual
def hashK : ExprKind → Nat
  | .integer n => hashMix 11 (intCode n)
  | .real r => hashMix 12 r.val
  | .str s => hashMix 13 (strCode s)
  | .symbol s => hashMix 14 (strCode s)
  | .normal n => hashMix 15 (hashN n)
def hashN : Normal → Nat
  | .mk h c => hashMix (hashK h) (hashL c)
def hashL : ExprList → Nat
  | .nil => 7
  | .cons e es => hashMix (hashK e) (hashL es)
end

/- Model of `Expr::tag` from `lib.rs`: `None` for the numeric and string
leaves, the symbol itself for a symbol expression, and the recursively
computed tag of the head for a normal expression. -/
mutual
def tag : ExprKind → Option (List Char)
  | .integer _ => none
  | .real _ => none
  | .str _ => none
  | .symbol s => some s
  | .normal n => tagN n
def tagN : Normal → Option (List Char)
  | .mk head _ => tag head
end

/-- `impl PartialEq<Symbol> for Expr` (from `lib.rs`): true iff the kind
is the `Symbol` variant holding an equal symbol. -/
def ExprKind.eqSymbol : ExprKind → List Char → Bool
  | .symbol t, s => t == s
  | _, _ => false

/-- `Normal::has_head` (from `lib.rs`): `self.head == *sym` via the
`Expr == Symbol` shortcut equality. -/
def Normal.has_head (n : Normal) (s : List Char) : Bool :=
  n.head.eqSymbol s

/-- `Expr::has_normal_head` (from `lib.rs`). -/
def ExprKind.has_normal_head : ExprKind → List Char → Bool
  | .normal n, s => n.has_head s
  | _, _ => false

/-- Decimal digits of a natural number, most significant first; the
first argument is recursion fuel (always sufficient at `n + 1`). -/
def natDigitsAux : Nat → Nat → List Char → List Char
  | 0, _, acc => acc
  | fuel + 1, n, acc =>
    let d := Char.ofNat (48 + n % 10)
    if n < 10 then d :: acc else natDigitsAux fuel (n / 10) (d :: acc)

/-- Decimal rendering of a natural number. -/
def natDisplay (n : Nat) : List Char := natDigitsAux (n + 1) n []

/-- Rust's `Display` for `i64`: decimal digits with a leading minus sign
for negative values. -/
def intDisplay : Int → List Char
  | .ofNat n => natDisplay n
  | .negSucc m => Char.ofNat 45 :: natDisplay (m + 1)

/-- Escape of one character inside a Rust `{:?}` string rendering
(quote, backslash and the common control characters; the full Unicode
escape table of Rust's `Debug` is not reproduced — no claim depends on
string rendering). -/
def escapeDebugChar (c : Char) : List Char :=
  if c = Char.ofNat 34 then String.data "\\\""
  else if c = Char.ofNat 92 then String.data "\\\\"
  else if c = Char.ofNat 10 then String.data "\\n"
  else if c = Char.ofNat 9 then String.data "\\t"
  else if c = Char.ofNat 13 then String.data "\\r"
  else [c]

/-- Rust's `{:?}` rendering of a string: quoted and escaped. -/
def strDebugDisplay (s : List Char) : List Char :=
  Char.ofNat 34 :: (s.map escapeDebugChar).flatten ++ [Char.ofNat 34]

/-- Stand-in for Rust's `{:?}` rendering of an `f64` (from the `Real`
arm of `Display for Number`): the exact numeral text of float formatting
is not modelled — no claim depends on it — so the bits are rendered in
decimal. -/
def realDisplay (r : F64) : List Char := natDisplay r.val

/- Model of `Display` for `ExprKind` and `Normal` from `lib.rs`.  A
normal expression writes its displayed head, `[`, each displayed
element followed by `", "` whenever its index is not `len - 1`, and `]`;
an integer writes its decimal digits, a string its quoted form, a
symbol its full text. -/
mutual
def displayK : ExprKind → List Char
  | .integer n => intDisplay n
  | .real r => realDisplay r
  | .str s => strDebugDisplay s
  | .symbol s => s
  | .normal n => displayN n
def displayN : Normal → List Char
  | .mk head contents =>
    displayK head ++ String.data "[" ++
      displayL contents.length 0 contents ++ String.data "]"
def displayL : Nat → Nat → ExprList → List Char
  | _, _, .nil => []
  | len, idx, .cons e es =>
    displayK e ++ (if idx ≠ len - 1 then String.data ", " else []) ++
      displayL len (idx + 1) es
end

/-- `Number` from `lib.rs`. -/
inductive Number : Type where
  | Integer (n : Int)
  | Real (r : F64)

/-- `Number::real` (from `lib.rs`): build a `NotNan` from the float,
panicking — modelled by `Except.error` — when it is NaN.  The argument
is the bit pattern of the `f64`. -/
def Number.real (r : Nat) : Except (List Char) Number :=
  if h : f64IsNaN r = false then .ok (.Real ⟨r, h⟩)
  else .error (String.data "Number::real: got NaN")

/-- `impl From<Number> for ExprKind` (from `lib.rs`). -/
def exprKindOfNumber : Number → ExprKind
  | .Integer n => .integer n
  | .Real r => .real r

/- Heap model for the `Arc<ExprKind>` inside `Expr` (from `lib.rs`).
A heap is a list of cells, each holding the stored `ExprKind` and its
strong reference count; an `Expr` handle is an index into the heap. -/

/-- One `Arc` allocation: the pointed-to `ExprKind` and the strong
count. -/
structure Cell : Type where
  val : ExprKind
  strong : Nat

/-- The allocation store for `Arc<ExprKind>`. -/
abbrev Heap : Type := List Cell

/-- `Expr::kind` (from `lib.rs`): dereference the `Arc` and read the
stored `ExprKind`. -/
def Expr.kind (h : Heap) (p : Nat) : Option ExprKind :=
  h[p]?.map Cell.val

/-- `Expr::ref_count` (from `lib.rs`): `Arc::strong_count`. -/
def Expr.ref_count (h : Heap) (p : Nat) : Option Nat :=
  h[p]?.map Cell.strong

/-- `Expr::new` (from `lib.rs`): `Arc::new` — a fresh allocation with
strong count 1. -/
def Expr.new (h : Heap) (k : ExprKind) : Heap × Nat :=
  (h ++ [⟨k, 1⟩], h.length)

/-- `Clone for Expr` (derived, from `lib.rs`): `Arc::clone` increments
the strong count and returns the same pointer. -/
def Expr.clone (h : Heap) (p : Nat) : Heap × Nat :=
  match h[p]? with
  | some c => (h.set p ⟨c.val, c.strong + 1⟩, p)
  | none => (h, p)

/-- `Expr::kind_mut` (from `lib.rs`) followed by writing `f` through the
returned mutable reference.  `Arc::make_mut`: when the strong count is
1 the stored value is updated in place; otherwise the value is cloned
into a fresh allocation, the old count is decremented, and the handle is
repointed at the clone. -/
def Expr.kind_mut (h : Heap) (p : Nat) (f : ExprKind → ExprKind) : Heap × Nat :=
  match h[p]? with
  | none => (h, p)
  | some c =>
    if c.strong = 1 then (h.set p ⟨f c.val, 1⟩, p)
    else (h.set p ⟨c.val, c.strong - 1⟩ ++ [⟨f c.val, 1⟩], h.length)

/-- The derived `PartialEq` of `Expr` (from `lib.rs`): `Arc` equality
dereferences both sides and compares the pointed-to `ExprKind`s
structurally. -/
def Expr.beq (h : Heap) (p q : Nat) : Option Bool :=
  match Expr.kind h p, Expr.kind h q with
  | some a, some b => some (beqK a b)
  | _, _ => none

/-- The derived `Hash` of `Expr` (from `lib.rs`): hash of the pointed-to
`ExprKind`. -/
def Expr.hash (h : Heap) (p : Nat) : Option Nat :=
  (Expr.kind h p).map hashK

/-- `Expr::real` (from `lib.rs`): `Expr::number(Number::real(real))` —
the panic of `Number::real` propagates, otherwise a fresh expression is
allocated. -/
def Expr.real (h : Heap) (r : Nat) : Except (List Char) (Heap × Nat) :=
  (Number.real r).map fun num => Expr.new h (exprKindOfNumber num)

/-- Comma-space separated join of rendered elements, the reference shape
for the display of a normal expression's element list. -/
def joinComma : List (List Char) → List Char
  | [] => []
  | [x] => x
  | x :: y :: xs => x ++ String.data ", " ++ joinComma (y :: xs)

/-- The symbol grammar stated in the spec's external-interface section:
`component(delim component)* delim name`, i.e. at least two parts, every
part a valid name, joined by single delimiters. -/
def matchesSymbolGrammar (s : List Char) : Prop :=
  ∃ parts : List (List Char), 2 ≤ parts.length ∧
    (∀ p ∈ parts, validName p = true) ∧ s = joinGrave parts

/-- A sample expression tree, `Global`f[1, "x"]`. -/
def sampleKind : ExprKind :=
  .normal (.mk (.symbol (String.data "Global`f"))
    (.cons (.integer 1) (.cons (.str (String.data "x")) .nil)))

/-- A heap holding two separate allocations of the same tree. -/
def sampleHeap : Heap := [⟨sampleKind, 1⟩, ⟨sampleKind, 1⟩]

/-!  ## Lemmas  -/

mutual
theorem beqK_iff : ∀ a b : ExprKind, beqK a b = true ↔ a = b
  | .integer _, .integer _ => by simp [beqK]
  | .integer _, .real _ => by simp [beqK]
  | .integer _, .str _ => by simp [beqK]
  | .integer _, .symbol _ => by simp [beqK]
  | .integer _, .normal _ => by simp [beqK]
  | .real _, .integer _ => by simp [beqK]
  | .real x, .real y => by
      simp only [beqK, beq_iff_eq]
      exact ⟨fun h => congrArg ExprKind.real (Subtype.ext h),
        fun h => congrArg Subtype.val (ExprKind.real.inj h)⟩
  | .real _, .str _ => by simp [beqK]
  | .real _, .symbol _ => by simp [beqK]
  | .real _, .normal _ => by simp [beqK]
  | .str _, .integer _ => by simp [beqK]
  | .str _, .real _ => by simp [beqK]
  | .str _, .str _ => by simp [beqK]
  | .str _, .symbol _ => by simp [beqK]
  | .str _, .normal _ => by simp [beqK]
  | .symbol _, .integer _ => by simp [beqK]
  | .symbol _, .real _ => by simp [beqK]
  | .symbol _, .str _ => by simp [beqK]
  | .symbol _, .symbol _ => by simp [beqK]
  | .symbol _, .normal _ => by simp [beqK]
  | .normal _, .integer _ => by simp [beqK]
  | .normal _, .real _ => by simp [beqK]
  | .normal _, .str _ => by simp [beqK]
  | .normal _, .symbol _ => by simp [beqK]
  | .normal x, .normal y => by simp [beqK, beqN_iff x y]
theorem beqN_iff : ∀ a b : Normal, beqN a b = true ↔ a = b
  | .mk h1 c1, .mk h2 c2 => by
      simp [beqN, beqK_iff h1 h2, beqL_iff c1 c2]
theorem beqL_iff : ∀ a b : ExprList, beqL a b = true ↔ a = b
  | .nil, .nil => by simp [beqL]
  | .nil, .cons _ _ => by simp [beqL]
  | .cons _ _, .nil => by simp [beqL]
  | .cons a as, .cons b bs => by
      simp [beqL, beqK_iff a b, beqL_iff as bs]
end

instance : DecidableEq ExprKind := fun a b => decidable_of_iff _ (beqK_iff a b)

theorem displayL_eq_joinComma : ∀ (es : ExprList) (idx len : Nat),
    len = idx + es.length → displayL len idx es = joinComma (es.toList.map displayK)
  | .nil, _, _, _ => rfl
  | .cons e .nil, idx, len, h => by
      have hidx : idx = len - 1 := by
        simp [ExprList.length] at h; omega
      simp [displayL, hidx, ExprList.toList, joinComma]
  | .cons e (.cons e' es'), idx, len, h => by
      have hne : idx ≠ len - 1 := by
        simp [ExprList.length] at h; omega
      have ih := displayL_eq_joinComma (.cons e' es') (idx + 1) len
        (by simp [ExprList.length] at h ⊢; omega)
      rw [displayL, ih]
      simp [hne, ExprList.toList, joinComma, List.append_assoc]

theorem isNameFirst_grave : isNameFirst grave = false := by decide

theorem isNameRest_grave : isNameRest grave = false := by decide

theorem validName_ne_nil {p : List Char} (h : validName p = true) : p ≠ [] := by
  intro hp; rw [hp] at h; cases h

theorem validName_not_grave {p : List Char} (h : validName p = true) : grave ∉ p := by
  intro hm
  cases p with
  | nil => cases h
  | cons c cs =>
    simp only [validName, Bool.and_eq_true] at h
    rcases List.mem_cons.mp hm with heq | hm'
    · rw [← heq, isNameFirst_grave] at h
      cases h.1
    · have := List.all_eq_true.mp h.2 _ hm'
      rw [isNameRest_grave] at this
      cases this

theorem splitGrave_ne_nil (s : List Char) : splitGrave s ≠ [] := by
  induction s with
  | nil => simp [splitGrave]
  | cons c cs ih =>
    rw [splitGrave]
    by_cases hc : c = grave
    · simp [hc]
    · rw [if_neg hc]
      cases h : splitGrave cs <;> simp [h]

theorem joinGrave_cons (p : List Char) {ps : List (List Char)} (h : ps ≠ []) :
    joinGrave (p :: ps) = p ++ grave :: joinGrave ps := by
  cases ps with
  | nil => exact absurd rfl h
  | cons q qs => rfl

theorem joinGrave_splitGrave (s : List Char) : joinGrave (splitGrave s) = s := by
  induction s with
  | nil => rfl
  | cons c cs ih =>
    rw [splitGrave]
    by_cases hc : c = grave
    · rw [if_pos hc, joinGrave_cons _ (splitGrave_ne_nil cs), ih, hc]
      rfl
    · rw [if_neg hc]
      cases h : splitGrave cs with
      | nil => exact absurd h (splitGrave_ne_nil cs)
      | cons p ps =>
        rw [h] at ih
        cases ps with
        | nil =>
          simp only [joinGrave] at ih ⊢
          rw [ih]
        | cons q qs =>
          rw [joinGrave_cons _ (by simp)] at ih
          rw [joinGrave_cons _ (by simp), List.cons_append, ih]

theorem splitGrave_of_not_mem {p : List Char} (hp : grave ∉ p) : splitGrave p = [p] := by
  induction p with
  | nil => rfl
  | cons c cs ih =>
    have hc : ¬(c = grave) := fun h => hp (by rw [h]; exact List.mem_cons_self ..)
    rw [splitGrave, if_neg hc, ih fun h => hp (List.mem_cons_of_mem _ h)]

theorem splitGrave_append {p : List Char} (hp : grave ∉ p) (rest : List Char) :
    splitGrave (p ++ grave :: rest) = p :: splitGrave rest := by
  induction p with
  | nil =>
    rw [List.nil_append, splitGrave, if_pos rfl]
  | cons c cs ih =>
    have hc : ¬(c = grave) := fun h => hp (by rw [h]; exact List.mem_cons_self ..)
    rw [List.cons_append, splitGrave, if_neg hc, ih fun h => hp (List.mem_cons_of_mem _ h)]

theorem splitGrave_ctxOfNames (names : List (List Char))
    (h : ∀ p ∈ names, grave ∉ p) (rest : List Char) :
    splitGrave (ctxOfNames names ++ rest) = names ++ splitGrave rest := by
  induction names with
  | nil => simp [ctxOfNames]
  | cons n ns ih =>
    rw [ctxOfNames, List.append_assoc, List.cons_append,
      splitGrave_append (h n (List.mem_cons_self ..)),
      ih fun p hp => h p (List.mem_cons_of_mem _ hp)]
    rfl

theorem joinGrave_concat (ns : List (List Char)) (n : List Char) :
    joinGrave (ns ++ [n]) = ctxOfNames ns ++ n := by
  induction ns with
  | nil => rfl
  | cons m ms ih =>
    rw [List.cons_append, joinGrave_cons _ (by simp), ih, ctxOfNames]
    simp

theorem joinGrave_concat_nil (ns : List (List Char)) :
    joinGrave (ns ++ [[]]) = ctxOfNames ns := by
  rw [joinGrave_concat]; simp

theorem ctxOfNames_append (ns ms : List (List Char)) :
    ctxOfNames (ns ++ ms) = ctxOfNames ns ++ ctxOfNames ms := by
  induction ns with
  | nil => rfl
  | cons n rest ih =>
    rw [List.cons_append, ctxOfNames, ih, ctxOfNames]
    simp

theorem ctxOfNames_ends_grave : ∀ {ns : List (List Char)}, ns ≠ [] →
    ∃ xs, ctxOfNames ns = xs ++ [grave]
  | [], h => absurd rfl h
  | [n], _ => ⟨n, rfl⟩
  | n :: m :: ms, _ => by
    obtain ⟨xs, hxs⟩ := @ctxOfNames_ends_grave (m :: ms) (by simp)
    exact ⟨n ++ grave :: xs, by rw [ctxOfNames, hxs]; simp⟩

theorem validContext_iff (c : List Char) :
    validContext c = true ↔
      ∃ names, names ≠ [] ∧ (∀ p ∈ names, validName p = true) ∧
        c = ctxOfNames names := by
  constructor
  · intro h
    simp only [validContext, Bool.and_eq_true, decide_eq_true_eq,
      List.all_eq_true] at h
    obtain ⟨⟨hlen, hlast⟩, hall⟩ := h
    obtain ⟨L, b, hLb⟩ :=
      (List.eq_nil_or_concat (splitGrave c)).resolve_left (splitGrave_ne_nil c)
    rw [List.concat_eq_append] at hLb
    rw [hLb] at hlen hlast hall
    rw [List.getLastD_concat] at hlast
    subst hlast
    refine ⟨L, ?_, ?_, ?_⟩
    · intro hLnil
      rw [hLnil] at hlen
      simp at hlen
    · intro p hp
      exact hall p (by rw [List.dropLast_concat]; exact hp)
    · have hj := joinGrave_splitGrave c
      rw [hLb, joinGrave_concat_nil] at hj
      exact hj.symm
  · rintro ⟨names, hne, hval, rfl⟩
    have hsplit : splitGrave (ctxOfNames names) = names ++ [[]] := by
      simpa [splitGrave] using
        splitGrave_ctxOfNames names
          (fun p hp => validName_not_grave (hval p hp)) []
    simp only [validContext, hsplit, Bool.and_eq_true, decide_eq_true_eq,
      List.all_eq_true]
    refine ⟨⟨?_, ?_⟩, ?_⟩
    · have := List.length_pos.mpr hne
      simp only [List.length_append, List.length_singleton]
      omega
    · rw [List.getLastD_concat]
    · intro p hp
      rw [List.dropLast_concat] at hp
      exact hval p hp

theorem lastGraveSplit_eq_none {s : List Char} :
    lastGraveSplit s = none ↔ grave ∉ s := by
  induction s with
  | nil => simp [lastGraveSplit]
  | cons c cs ih =>
    rw [lastGraveSplit]
    cases h : lastGraveSplit cs with
    | some v =>
      have hmem : grave ∈ cs := by
        by_contra hn
        rw [ih.mpr hn] at h
        cases h
      simp [List.mem_cons, hmem]
    | none =>
      by_cases hc : c = grave
      · simp [hc]
      · have hn : grave ∉ cs := ih.mp h
        have hgc : ¬(grave = c) := fun hh => hc hh.symm
        simp [hc, List.mem_cons, hn, hgc]

theorem lastGraveSplit_spec : ∀ {s ctx name : List Char},
    lastGraveSplit s = some (ctx, name) →
    s = ctx ++ name ∧ grave ∉ name ∧ ∃ xs, ctx = xs ++ [grave] := by
  intro s
  induction s with
  | nil => intro ctx name h; cases h
  | cons c cs ih =>
    intro ctx name h
    rw [lastGraveSplit] at h
    cases hcs : lastGraveSplit cs with
    | some v =>
      obtain ⟨ctx', name'⟩ := v
      rw [hcs] at h
      injection h with hp
      obtain ⟨h1, h2⟩ := Prod.mk.inj hp
      subst h1; subst h2
      obtain ⟨hs, hn, xs, hxs⟩ := ih hcs
      exact ⟨by rw [hs]; rfl, hn, c :: xs, by rw [hxs]; rfl⟩
    | none =>
      rw [hcs] at h
      by_cases hc : c = grave
      · rw [if_pos hc] at h
        injection h with hp
        obtain ⟨h1, h2⟩ := Prod.mk.inj hp
        subst h1; subst h2
        exact ⟨rfl, lastGraveSplit_eq_none.mp hcs, [], by rw [hc]; rfl⟩
      · rw [if_neg hc] at h; cases h

theorem lastGraveSplit_append {name : List Char} (hn : grave ∉ name) :
    ∀ xs : List Char, lastGraveSplit (xs ++ grave :: name) = some (xs ++ [grave], name)
  | [] => by
    rw [List.nil_append, lastGraveSplit, lastGraveSplit_eq_none.mpr hn]
    simp
  | c :: xs => by
    rw [List.cons_append, lastGraveSplit, lastGraveSplit_append hn xs]
    simp

theorem rfindGrave_of_mem : ∀ {s : List Char}, grave ∈ s → ∃ i, rfindGrave s = some i
  | c :: cs, h => by
    rw [rfindGrave]
    cases hcs : rfindGrave cs with
    | some i => exact ⟨i + 1, rfl⟩
    | none =>
      rcases List.mem_cons.mp h with heq | hmem
      · exact ⟨0, by rw [if_pos heq.symm]⟩
      · obtain ⟨i, hi⟩ := rfindGrave_of_mem hmem
        rw [hi] at hcs
        cases hcs

/-!  ## Claims  -/

/-- C8: `tag()` computes the outermost naming symbol: the stored symbol
for a symbol expression, the recursively computed tag of the head for a
normal expression (so the curried `g[x][y]` has tag `g`), and `none`
for integer, real and string leaves. -/
theorem tag_outermost_symbol :
    (∀ s, tag (.symbol s) = some s) ∧
    (∀ head contents, tag (.normal (.mk head contents)) = tag head) ∧
    (∀ n : Int, tag (.integer n) = none) ∧
    (∀ r, tag (.real r) = none) ∧
    (∀ s, tag (.str s) = none) ∧
    (∀ g xs ys, tag (.normal (.mk (.normal (.mk (.symbol g) xs)) ys)) = some g) :=
  ⟨fun _ => rfl, fun _ _ => rfl, fun _ => rfl, fun _ => rfl, fun _ => rfl,
    fun _ _ _ => rfl⟩

/-- C10: the shortcut equality `Expr == Symbol` holds iff the kind is
exactly a `Symbol` variant holding an equal symbol; consequently
`has_normal_head` is true only when the head is literally that symbol
expression, so the curried `g[x][y]` does not have normal head `g` even
though its tag is `g`. -/
theorem eq_symbol_shortcut :
    (∀ e s, ExprKind.eqSymbol e s = true ↔ e = .symbol s) ∧
    (∀ e s, ExprKind.has_normal_head e s = true ↔
      ∃ c, e = .normal (.mk (.symbol s) c)) ∧
    (∀ g xs ys,
      ExprKind.has_normal_head (.normal (.mk (.normal (.mk (.symbol g) xs)) ys)) g = false ∧
      tag (.normal (.mk (.normal (.mk (.symbol g) xs)) ys)) = some g) := by
  refine ⟨fun e s => ?_, fun e s => ?_, fun g xs ys => ⟨rfl, rfl⟩⟩
  · cases e <;> simp [ExprKind.eqSymbol]
  · cases e with
    | normal n =>
      cases n with
      | mk h c =>
        cases h <;>
          simp [ExprKind.has_normal_head, Normal.has_head, Normal.head, ExprKind.eqSymbol]
    | integer n => simp [ExprKind.has_normal_head]
    | real r => simp [ExprKind.has_normal_head]
    | str s => simp [ExprKind.has_normal_head]
    | symbol s => simp [ExprKind.has_normal_head]

/-- C9: the display of a normal expression is the displayed head, `[`,
the displayed elements joined by `", "`, and `]`; a symbol displays as
its full name; an empty normal displays as `head[]`; and the example
`System`List[1, 2, 3]` renders as stated. -/
theorem display_normal :
    (∀ head contents, displayK (.normal (.mk head contents)) =
      displayK head ++ String.data "[" ++
        joinComma (contents.toList.map displayK) ++ String.data "]") ∧
    (∀ s, displayK (.symbol s) = s) ∧
    (∀ n : Int, displayK (.integer n) = intDisplay n) ∧
    (∀ head, displayK (.normal (.mk head .nil)) =
      displayK head ++ String.data "[]") ∧
    (displayK (.normal (.mk (.symbol (String.data "System`List"))
        (.cons (.integer 1) (.cons (.integer 2) (.cons (.integer 3) .nil))))) =
      String.data "System`List[1, 2, 3]") := by
  refine ⟨fun head contents => ?_, fun _ => rfl, fun _ => rfl, fun head => ?_, by decide⟩
  · show displayN (.mk head contents) = _
    rw [displayN, displayL_eq_joinComma contents 0 contents.length (by omega)]
  · show displayN (.mk head .nil) = _
    rw [displayN]
    simp [displayL, joinComma, ExprList.length]

/-- C5: `Number::real` (and `Expr::real`, which delegates to it) fails
fatally iff the float is NaN; every non-NaN bit pattern, including the
infinities, yields the `Real` value holding exactly those bits; and a
stored `F64` is never NaN. -/
theorem number_real_nan (r : Nat) :
    ((∃ e, Number.real r = .error e) ↔ f64IsNaN r = true) ∧
    (∀ h : f64IsNaN r = false, Number.real r = .ok (.Real ⟨r, h⟩)) ∧
    (∀ hp : Heap, (∃ e, Expr.real hp r = .error e) ↔ f64IsNaN r = true) ∧
    (∀ (hp : Heap) (h : f64IsNaN r = false),
      Expr.real hp r = .ok (Expr.new hp (.real ⟨r, h⟩))) ∧
    (∀ x : F64, f64IsNaN x.val = false) := by
  rcases Bool.eq_false_or_eq_true (f64IsNaN r) with hb | hb
  · refine ⟨?_, ?_, ?_, ?_, fun x => x.2⟩
    · simp [Number.real, hb]
    · intro h; rw [hb] at h; cases h
    · intro hp
      rw [Expr.real, Number.real, dif_neg (by simp [hb])]
      simpa [hb] using ⟨String.data "Number::real: got NaN", rfl⟩
    · intro hp h; rw [hb] at h; cases h
  · refine ⟨?_, ?_, ?_, ?_, fun x => x.2⟩
    · simp [Number.real, hb]
    · intro h; rw [Number.real, dif_pos h]
    · intro hp
      rw [Expr.real, Number.real, dif_pos hb]
      simp [hb, Except.map]
    · intro hp h; rw [Expr.real, Number.real, dif_pos h]; rfl

/-- Witness for C5: positive infinity (`0x7FF0000000000000`) is not NaN
and is accepted, a quiet NaN pattern is rejected. -/
theorem number_real_nan_w :
    Number.real 0x7FF0000000000000 = .ok (.Real ⟨0x7FF0000000000000, by decide⟩) ∧
    (∃ e, Number.real 0x7FF8000000000000 = .error e) :=
  ⟨(number_real_nan 0x7FF0000000000000).2.1 (by decide),
    ((number_real_nan 0x7FF8000000000000).1).mpr (by decide)⟩

/-- C6: the fatal constructors are thin wrappers over the total ones:
`Symbol::new` (resp. `Context::new`) panics iff the corresponding
`try_new` is absent, and otherwise returns exactly its value. -/
theorem new_unwraps_try_new (s : List Char) :
    ((∃ e, Symbol.new s = .error e) ↔ Symbol.try_new s = none) ∧
    (∀ v, Symbol.try_new s = some v → Symbol.new s = .ok v) ∧
    ((∃ e, Context.new s = .error e) ↔ Context.try_new s = none) ∧
    (∀ v, Context.try_new s = some v → Context.new s = .ok v) := by
  refine ⟨?_, ?_, ?_, ?_⟩
  · cases h : Symbol.try_new s <;> simp [Symbol.new, h]
  · intro v h; simp [Symbol.new, h]
  · cases h : Context.try_new s <;> simp [Context.new, h]
  · intro v h; simp [Context.new, h]

/-- Witness for C6: `System`List` is a valid symbol and `Symbol::new`
returns it; `MyPackage`` is a valid context and `Context::new` returns
it. -/
theorem new_unwraps_try_new_w :
    Symbol.new (String.data "System`List") = .ok (String.data "System`List") ∧
    Context.new (String.data "MyPackage`") = .ok (String.data "MyPackage`") :=
  ⟨(new_unwraps_try_new _).2.1 _ (by decide),
    (new_unwraps_try_new _).2.2.2 _ (by decide)⟩

/-- C1: equality and hashing of `Expr` are structural over the
pointed-to `ExprKind`: two handles compare equal exactly when the trees
they point to are structurally identical, regardless of which
allocation each handle designates, and equal handles hash alike. -/
theorem structural_eq_hash (h : Heap) (p q : Nat) (a b : ExprKind)
    (hp : Expr.kind h p = some a) (hq : Expr.kind h q = some b) :
    Expr.beq h p q = some (beqK a b) ∧
    (beqK a b = true ↔ a = b) ∧
    (Expr.beq h p q = some true → Expr.hash h p = Expr.hash h q) := by
  have h1 : Expr.beq h p q = some (beqK a b) := by
    simp [Expr.beq, hp, hq]
  refine ⟨h1, beqK_iff a b, ?_⟩
  intro he
  rw [h1] at he
  have hab : a = b := (beqK_iff a b).mp (Option.some.inj he)
  simp [Expr.hash, hp, hq, hab]

/-- Witness for C1: two separately-allocated but structurally identical
trees compare equal and hash identically. -/
theorem structural_eq_hash_w :
    Expr.beq sampleHeap 0 1 = some true ∧
    Expr.hash sampleHeap 0 = Expr.hash sampleHeap 1 := by
  have h := structural_eq_hash sampleHeap 0 1 sampleKind sampleKind rfl rfl
  have ht : Expr.beq sampleHeap 0 1 = some true := by
    rw [h.1, (h.2.1).mpr rfl]
  exact ⟨ht, h.2.2 ht⟩

/-- C2: copy-on-write mutation.  After `b` is cloned from `a` (so the
allocation is shared), mutating through `a`'s `kind_mut` leaves the
expression seen through `b` unchanged; when the holder is sole
(`strong = 1`), `kind_mut` updates the stored `ExprKind` in place —
same pointer, no new allocation. -/
theorem kind_mut_cow (h h1 h2 : Heap) (p q p' : Nat) (c : Cell)
    (f : ExprKind → ExprKind)
    (hc : h[p]? = some c) (hs : 1 ≤ c.strong)
    (hclone : Expr.clone h p = (h1, q))
    (hmut : Expr.kind_mut h1 p f = (h2, p')) :
    (q = p ∧ Expr.kind h1 q = some c.val ∧ Expr.kind h2 q = some c.val ∧
      Expr.kind h2 p' = some (f c.val)) ∧
    (c.strong = 1 →
      Expr.kind_mut h p f = (h.set p ⟨f c.val, 1⟩, p) ∧
      (Expr.kind_mut h p f).1.length = h.length ∧
      Expr.kind (Expr.kind_mut h p f).1 p = some (f c.val)) := by
  have hlen : p < h.length := (List.getElem?_eq_some_iff.mp hc).1
  simp only [Expr.clone, hc] at hclone
  cases hclone
  have hget1 : (h.set p ⟨c.val, c.strong + 1⟩)[p]? = some ⟨c.val, c.strong + 1⟩ :=
    List.getElem?_set_self (by simpa using hlen)
  have hne : ¬(c.strong + 1 = 1) := by omega
  simp only [Expr.kind_mut, hget1, hne, if_false, if_neg] at hmut
  cases hmut
  constructor
  · refine ⟨rfl, ?_, ?_, ?_⟩
    · simp [Expr.kind, hget1]
    · rw [Expr.kind, List.getElem?_append_left (by simpa using hlen),
        List.set_set, List.getElem?_set_self (by simpa using hlen)]
      rfl
    · rw [Expr.kind]
      have : ((h.set p ⟨c.val, c.strong + 1⟩).set p ⟨c.val, c.strong + 1 - 1⟩).length =
          (h.set p ⟨c.val, c.strong + 1⟩).length := by simp
      rw [← this, List.getElem?_concat_length]
      rfl
  · intro h1
    have hkm : Expr.kind_mut h p f = (h.set p ⟨f c.val, 1⟩, p) := by
      rw [Expr.kind_mut, hc]
      show (if c.strong = 1 then (h.set p ⟨f c.val, 1⟩, p) else _) = _
      rw [if_pos h1]
    refine ⟨hkm, by rw [hkm]; simp, ?_⟩
    rw [hkm, Expr.kind, List.getElem?_set_self (by simpa using hlen)]
    rfl

/-- Witness for C2: on a concrete one-cell heap holding the integer 1,
cloning then mutating to the integer 2 leaves the clone's view at 1,
and the sole-holder mutation is in place. -/
theorem kind_mut_cow_w :
    (Expr.kind ((Expr.kind_mut (Expr.clone [⟨.integer 1, 1⟩] 0).1 0 (fun _ => .integer 2)).1)
      0 = some (.integer 1)) ∧
    Expr.kind_mut [⟨.integer 1, 1⟩] 0 (fun _ => .integer 2) = ([⟨.integer 2, 1⟩], 0) := by
  have h := kind_mut_cow [⟨.integer 1, 1⟩]
    (Expr.clone [⟨.integer 1, 1⟩] 0).1
    (Expr.kind_mut (Expr.clone [⟨.integer 1, 1⟩] 0).1 0 (fun _ => .integer 2)).1
    0 0
    (Expr.kind_mut (Expr.clone [⟨.integer 1, 1⟩] 0).1 0 (fun _ => .integer 2)).2
    ⟨.integer 1, 1⟩ (fun _ => .integer 2) rfl (by decide) rfl rfl
  exact ⟨h.1.2.2.1, (h.2 rfl).1⟩

/-- C3: the symbol validator accepts exactly the grammar
`component(delim component)* delim name` with components and names
matching `[A-Za-z$][A-Za-z0-9$]*`: `SymbolRef::try_new` succeeds iff the
text contains a delimiter, the substring after the last delimiter is a
valid name, and every delimiter-terminated component before it is a
valid non-empty name — equivalently, iff the text matches the grammar;
`Symbol::try_new` delegates to it and the accepted value is the input
itself. -/
theorem symbol_try_new_grammar (s : List Char) :
    ((SymbolRef_try_new s).isSome = true ↔ matchesSymbolGrammar s) ∧
    (∀ t, SymbolRef_try_new s = some t → t = s) ∧
    Symbol.try_new s = SymbolRef_try_new s := by
  refine ⟨⟨?_, ?_⟩, ?_, rfl⟩
  · intro h
    rw [SymbolRef_try_new] at h
    cases hls : lastGraveSplit s with
    | none => rw [hls] at h; cases h
    | some v =>
      obtain ⟨ctx, name⟩ := v
      simp only [hls] at h
      by_cases hcond : (validContext ctx && validName name) = true
      · obtain ⟨hvc, hvn⟩ := Bool.and_eq_true .. |>.mp hcond
        obtain ⟨hs, hgn, xs, hxs⟩ := lastGraveSplit_spec hls
        obtain ⟨names, hne, hvalid, hctx⟩ := (validContext_iff ctx).mp hvc
        refine ⟨names ++ [name], ?_, ?_, ?_⟩
        · have := List.length_pos.mpr hne
          simp only [List.length_append, List.length_singleton]
          omega
        · intro p hp
          rcases List.mem_append.mp hp with hp | hp
          · exact hvalid p hp
          · rw [List.mem_singleton.mp hp]; exact hvn
        · rw [joinGrave_concat, ← hctx, ← hs]
      · rw [if_neg hcond] at h; cases h
  · rintro ⟨parts, hlen, hvalid, rfl⟩
    obtain ⟨ns, n, hc⟩ := (List.eq_nil_or_concat parts).resolve_left
      (by intro hnil; rw [hnil] at hlen; simp at hlen)
    rw [List.concat_eq_append] at hc
    subst hc
    have hns : ns ≠ [] := by
      intro hnil; rw [hnil] at hlen; simp at hlen
    have hvn : validName n = true := hvalid n (by simp)
    have hvns : ∀ p ∈ ns, validName p = true :=
      fun p hp => hvalid p (by simp [hp])
    have hgn : grave ∉ n := validName_not_grave hvn
    obtain ⟨xs, hxs⟩ := ctxOfNames_ends_grave hns
    have hsplit : lastGraveSplit (ctxOfNames ns ++ n) = some (ctxOfNames ns, n) := by
      rw [hxs, List.append_assoc, List.singleton_append,
        lastGraveSplit_append hgn xs]
    have hvc : validContext (ctxOfNames ns) = true :=
      (validContext_iff _).mpr ⟨ns, hns, hvns, rfl⟩
    rw [joinGrave_concat]
    simp only [SymbolRef_try_new, hsplit, hvc, hvn, Bool.and_self, if_true,
      Option.isSome_some]
  · intro t ht
    rw [SymbolRef_try_new] at ht
    split at ht
    · cases ht
    · split at ht
      · exact (Option.some.inj ht).symm
      · cases ht

/-- Witness for C3: `System`List` is accepted (with two grammar parts)
and `List`, which has no delimiter, is rejected. -/
theorem symbol_try_new_grammar_w :
    matchesSymbolGrammar (String.data "System`List") ∧
    SymbolRef_try_new (String.data "List") = none :=
  ⟨((symbol_try_new_grammar (String.data "System`List")).1).mp (by decide),
    by decide⟩

/-- C4: on a validated symbol the `context()`/`symbol_name()` accessors
never fail: `rfind` locates the last delimiter at some index `i`,
`context` is the prefix through `i`, `symbol_name` the suffix after `i`,
and the two concatenate back to the original text. -/
theorem context_name_recombine (s t : List Char)
    (hv : SymbolRef_try_new s = some t) :
    ∃ i, rfindGrave s = some i ∧
      SymbolRef.context s = some (s.take (i + 1)) ∧
      SymbolRef.symbol_name s = some (s.drop (i + 1)) ∧
      s.take (i + 1) ++ s.drop (i + 1) = s := by
  have hmem : grave ∈ s := by
    rw [SymbolRef_try_new] at hv
    cases hls : lastGraveSplit s with
    | none => rw [hls] at hv; cases hv
    | some v =>
      obtain ⟨hs, _, xs, hxs⟩ := lastGraveSplit_spec hls
      rw [hs, hxs]
      simp
  obtain ⟨i, hi⟩ := rfindGrave_of_mem hmem
  exact ⟨i, hi, by rw [SymbolRef.context, hi]; rfl,
    by rw [SymbolRef.symbol_name, hi]; rfl, List.take_append_drop ..⟩

/-- Witness for C4: `System`List` splits into context `System`` and
name `List`, which recombine to the original text. -/
theorem context_name_recombine_w :
    SymbolRef.context (String.data "System`List") = some (String.data "System`") ∧
    SymbolRef.symbol_name (String.data "System`List") = some (String.data "List") := by
  obtain ⟨i, hi, hc, hn, _⟩ := context_name_recombine
    (String.data "System`List") (String.data "System`List") (by decide)
  have hi6 : rfindGrave (String.data "System`List") = some 6 := by decide
  rw [hi6] at hi
  obtain rfl : (6 : Nat) = i := Option.some.inj hi
  exact ⟨by rw [hc]; decide, by rw [hn]; decide⟩

/-- C7: `Context::join` on a valid context and a valid name never fails,
and the component list grows by exactly one: the joined context's
components are the original components followed by the joined name. -/
theorem join_components (c n : List Char)
    (hc : validContext c = true) (hn : validName n = true) :
    ∃ comps, Context.components c = some comps ∧
      Context.join c n = some (c ++ n ++ [grave]) ∧
      Context.components (c ++ n ++ [grave]) = some (comps ++ [n]) ∧
      (comps ++ [n]).length = comps.length + 1 ∧
      (comps ++ [n]).getLast? = some n := by
  obtain ⟨names, hne, hvalid, rfl⟩ := (validContext_iff c).mp hc
  have hcomp : ∀ (ms : List (List Char)), (∀ p ∈ ms, validName p = true) →
      Context.components (ctxOfNames ms) = some ms := by
    intro ms hms
    have hsplit : splitGrave (ctxOfNames ms) = ms ++ [[]] := by
      simpa [splitGrave] using
        splitGrave_ctxOfNames ms
          (fun p hp => validName_not_grave (hms p hp)) []
    have hfil : (ms ++ [[]]).filter (fun p => !p.isEmpty) = ms := by
      rw [List.filter_append]
      have h1 : ms.filter (fun p => !p.isEmpty) = ms :=
        List.filter_eq_self.mpr fun p hp => by
          simpa using validName_ne_nil (hms p hp)
      rw [h1]
      simp
    simp only [Context.components, hsplit, hfil]
    rw [if_pos (List.all_eq_true.mpr hms)]
  have hvapp : ∀ p ∈ names ++ [n], validName p = true := by
    intro p hp
    rcases List.mem_append.mp hp with hp | hp
    · exact hvalid p hp
    · rw [List.mem_singleton.mp hp]; exact hn
  have hjoinstr : ctxOfNames names ++ n ++ [grave] = ctxOfNames (names ++ [n]) := by
    rw [ctxOfNames_append, ctxOfNames, ctxOfNames]
    simp
  refine ⟨names, hcomp names hvalid, ?_, ?_, by simp, by simp⟩
  · rw [Context.join, ContextRef_try_new, if_pos ?_]
    rw [hjoinstr]
    exact (validContext_iff _).mpr ⟨names ++ [n], by simp, hvapp, rfl⟩
  · rw [hjoinstr, hcomp (names ++ [n]) hvapp]

/-- Witness for C7: joining `Private` onto `MyPackage`` yields
`MyPackage`Private``, whose components are `[MyPackage, Private]`. -/
theorem join_components_w :
    Context.join (String.data "MyPackage`") (String.data "Private") =
      some (String.data "MyPackage`Private`") ∧
    Context.components (String.data "MyPackage`Private`") =
      some [String.data "MyPackage", String.data "Private"] := by
  obtain ⟨comps, h1, h2, h3, h4, h5⟩ := join_components
    (String.data "MyPackage`") (String.data "Private") (by decide) (by decide)
  have hcomps : comps = [String.data "MyPackage"] := by
    have : Context.components (String.data "MyPackage`") =
        some [String.data "MyPackage"] := by decide
    rw [this] at h1
    exact (Option.some.inj h1).symm
  subst hcomps
  constructor
  · rw [h2]; decide
  · have : String.data "MyPackage`" ++ String.data "Private" ++ [grave] =
        String.data "MyPackage`Private`" := by decide
    rw [← this, h3]
    decide

end WolframExpr
